import Mathlib

/-!
Verification of the pmanage bounded-concurrency task runner.

The repository has two variants:
- the bare variant (src/unnamed/part_000): slot semaphore + scheduler;
- the extended variant (src/pmanage.js): the same semaphore plus
  per-slot idle timestamps (thread_end_times), a run-completion hook
  (fin) and a completed-task counter.

The semaphore state is embedded shallowly.  JavaScript numbers holding
slot counts are modelled as integers; the waiter queue (pending_tasks,
an array of promise-resolve continuations) is modelled as a list of
task identifiers.  Ghost fields (running, completed, resumed, enqueued)
are history variables recording, respectively, the number of tasks
currently admitted, the completed_tasks counter of schedule, the order
in which waiters were resumed, and the order in which they were
enqueued; they do not correspond to mutable source variables but are
determined by the trace of operations.
-/

namespace Pmanage

/-- State of the bare variant's slot semaphore (src/unnamed/part_000,
lines 10-11): avail_slots and pending_tasks. -/
structure BState where
  avail : ℤ
  waiters : List ℕ
  deriving DecidableEq, Repr

/-- Bare acquireSlot (src/unnamed/part_000, lines 41-54): if a slot is
available, decrement avail_slots and return true (admitted at once);
otherwise push the caller's continuation, here its task id, onto the
tail of pending_tasks and return false (suspended). -/
def acquireSlotB (t : ℕ) (s : BState) : BState × Bool :=
  if 0 < s.avail then
    ({ s with avail := s.avail - 1 }, true)
  else
    ({ s with waiters := s.waiters ++ [t] }, false)

/-- Bare releaseSlot (src/unnamed/part_000, lines 56-65): if any tasks
are pending, shift the head of pending_tasks and resume it; otherwise
increment avail_slots. -/
def releaseSlotB (s : BState) : BState :=
  match s.waiters with
  | _ :: rest => { s with waiters := rest }
  | [] => { s with avail := s.avail + 1 }

/-- State of the extended variant (src/pmanage.js, lines 10-14):
avail_slots, total_slots, pending_tasks, thread_end_times, plus a
counter of fin() invocations and the ghost history fields described in
the file header. -/
structure SemState where
  avail : ℤ
  total : ℤ
  waiters : List ℕ
  thread_end_times : List ℤ
  fin_count : ℕ
  running : ℕ
  completed : ℕ
  resumed : List ℕ
  enqueued : List ℕ
  deriving DecidableEq, Repr

/-- The state at the start of a run with capacity N (src/pmanage.js,
lines 194-199: avail_slots = total_slots = N, all queues empty). -/
def initSem (N : ℕ) : SemState :=
  { avail := N, total := N, waiters := [], thread_end_times := [],
    fin_count := 0, running := 0, completed := 0, resumed := [], enqueued := [] }

/-- Extended acquireSlot (src/pmanage.js, lines 76-89): if a slot is
available, decrement avail_slots and return true; otherwise push the
caller onto the tail of pending_tasks and return false (the caller
suspends until resumed by releaseSlot).  The ghost field running is
incremented on immediate admission; an enqueued waiter is counted as
running only once resumed. -/
def acquireSlot (t : ℕ) (s : SemState) : SemState × Bool :=
  if 0 < s.avail then
    ({ s with avail := s.avail - 1, running := s.running + 1 }, true)
  else
    ({ s with waiters := s.waiters ++ [t], enqueued := s.enqueued ++ [t] }, false)

/-- Extended releaseSlot (src/pmanage.js, lines 91-104).  If any tasks
are pending, shift the head of pending_tasks and resume it (the ghost
running count is unchanged: the releaser stops running, the resumed
waiter starts).  Otherwise push the current time onto
thread_end_times, increment avail_slots, and call fin() when
avail_slots has returned to total_slots. -/
def releaseSlot (now : ℤ) (s : SemState) : SemState :=
  match s.waiters with
  | w :: rest =>
      { s with waiters := rest, resumed := s.resumed ++ [w] }
  | [] =>
      let s1 := { s with thread_end_times := s.thread_end_times ++ [now],
                         avail := s.avail + 1, running := s.running - 1 }
      if s1.avail = s1.total then { s1 with fin_count := s1.fin_count + 1 } else s1

/-- Models the tail of schedule's per-task async body (src/pmanage.js,
lines 120-137) from the moment the awaited exec promise settles.  On
success (promise resolved) the body continues: the completed_tasks
counter is incremented and releaseSlot() runs.  On failure (promise
rejected: non-zero exit or spawn failure) the await throws and, there
being no try/catch/finally, none of the remaining statements run: the
counter is not incremented and releaseSlot() is never called. -/
def taskFinish (ok : Bool) (now : ℤ) (s : SemState) : SemState :=
  if ok then releaseSlot now { s with completed := s.completed + 1 }
  else s

/-- Models the synchronous start of schedule (src/pmanage.js, lines
111-117): tasks.forEach runs every per-task async body up to its first
await in submission order, so every task calls acquireSlot before any
exec completion is processed.  Task ids are their 0-based submission
indices. -/
def acquirePhase (M : ℕ) (s : SemState) : SemState :=
  (List.range M).foldl (fun st t => (acquireSlot t st).1) s

/-- Applies releaseSlot k times, the j-th release happening at time
now j.  In a run where every exec succeeds, each of the M tasks calls
releaseSlot exactly once after its command completes, so the whole run
is acquirePhase followed by M releases. -/
def relIter (now : ℕ → ℤ) : ℕ → SemState → SemState
  | 0, s => s
  | k + 1, s => releaseSlot (now k) (relIter now k s)

/-- A semaphore operation: an acquire by task t, or a release at a
given clock reading. -/
inductive SemOp where
  | acq (t : ℕ)
  | rel (now : ℤ)
  deriving DecidableEq, Repr

/-- One extended-variant step. -/
def stepX (s : SemState) : SemOp → SemState
  | SemOp.acq t => (acquireSlot t s).1
  | SemOp.rel now => releaseSlot now s

/-- Runs a sequence of operations on the extended variant. -/
def runX (ops : List SemOp) (s : SemState) : SemState :=
  ops.foldl stepX s

/-- One bare-variant step (the bare releaseSlot reads no clock). -/
def stepB (s : BState) : SemOp → BState
  | SemOp.acq t => (acquireSlotB t s).1
  | SemOp.rel _ => releaseSlotB s

/-- Runs a sequence of operations on the bare variant. -/
def runB (ops : List SemOp) (s : BState) : BState :=
  ops.foldl stepB s

/-- Projects the extended state onto the bare state: the fields both
variants share. -/
def projB (s : SemState) : BState :=
  { avail := s.avail, waiters := s.waiters }

/-- States reachable from the initial state by acquire and release
operations.  A release step is available only while at least one task
is running, because in the program releaseSlot is called only from the
body of a task that has been admitted (src/pmanage.js, line 137). -/
inductive Reachable (N : ℕ) : SemState → Prop where
  | init : Reachable N (initSem N)
  | acq (t : ℕ) {s : SemState} : Reachable N s → Reachable N (acquireSlot t s).1
  | rel (now : ℤ) {s : SemState} : Reachable N s → 0 < s.running →
      Reachable N (releaseSlot now s)

/-- The strengthened semaphore invariant used to prove claims about
reachable states. -/
def SemInv (N : ℕ) (s : SemState) : Prop :=
  0 ≤ s.avail ∧ s.avail + s.running = N ∧ s.total = N ∧
    (s.waiters ≠ [] → s.avail = 0) ∧ s.resumed ++ s.waiters = s.enqueued

/-- Character class of the regular expression at src/pmanage.js line
157: an ASCII uppercase letter. -/
def isUpperAZ (c : Char) : Bool :=
  'A' ≤ c ∧ c ≤ 'Z'

/-- Fuel-indexed scan behind matchDefines.  Every recursive call
consumes at least one character, so fuel equal to the length of the
scanned list is always enough; the definition is structural in the
fuel so that concrete instances reduce inside the kernel. -/
def matchDefinesAux : ℕ → List Char → List String
  | 0, _ => []
  | _ + 1, [] => []
  | fuel + 1, '@' :: rest =>
      let run := rest.takeWhile isUpperAZ
      if run.isEmpty then matchDefinesAux fuel rest
      else String.mk run :: matchDefinesAux fuel (rest.dropWhile isUpperAZ)
  | fuel + 1, _ :: rest => matchDefinesAux fuel rest

/-- The successive matches of the global regular expression at-sign
followed by one or more uppercase letters (src/pmanage.js line 157,
line.match), as the placeholder names with the at-sign stripped (the
cur_define.slice(1) of line 160).  The scan is left to right; after a
match it resumes at the first character past the match, exactly as a
global JavaScript regex advances lastIndex. -/
def matchDefines (l : List Char) : List String :=
  matchDefinesAux l.length l

/-- Replaces every occurrence of pat by rep in a character list, the
way a global JavaScript string replacement does: scan left to right,
on a match emit rep and resume just past the matched text, otherwise
advance one character.  An empty pattern never arises here (patterns
below always start with an at-sign); it is left alone. -/
def replaceCharsAux (pat rep : List Char) : ℕ → List Char → List Char
  | 0, l => l
  | _ + 1, [] => []
  | fuel + 1, c :: rest =>
      if pat ≠ [] ∧ pat.isPrefixOf (c :: rest) then
        rep ++ replaceCharsAux pat rep fuel ((c :: rest).drop pat.length)
      else
        c :: replaceCharsAux pat rep fuel rest

/-- Every recursive step of replaceCharsAux consumes at least one
character (a match consumes the whole non-empty pattern), so fuel
equal to the length of the list is always enough; the fuel makes the
recursion structural so concrete instances reduce inside the
kernel. -/
def replaceChars (pat rep l : List Char) : List Char :=
  replaceCharsAux pat rep l.length l

/-- The JavaScript global replacement someString.replace(pattern, rep)
(src/pmanage.js lines 177-178; the regular expressions there are a
literal comma and an at-sign followed by a placeholder name, both free
of metacharacters, so they match as plain text). -/
def strReplace (s pat rep : String) : String :=
  String.mk (replaceChars pat.data rep.data s.data)

/-- Adds a placeholder name to the define set (src/pmanage.js line 160,
defines.add).  A JavaScript Set keeps insertion order, so it is
modelled as a duplicate-free list with insertion at the tail. -/
def insertDefine (acc : List String) (d : String) : List String :=
  if d ∈ acc then acc else acc ++ [d]

/-- The define set extracted from the whole workload (src/pmanage.js
lines 155-163), in insertion order. -/
def extractAllDefines (tasks : List String) : List String :=
  tasks.foldl (fun acc line => (matchDefines line.data).foldl insertDefine acc) []

/-- Workload expansion, setupWorkload of the extended variant
(src/pmanage.js lines 149-183).  The input is the file contents
already split on the end-of-line separator (line 151); a file ending
in a newline therefore contributes a final empty string.  In order:
lines whose first character is the hash sign are filtered out (line
151; an empty line has no first character and is kept), tasks.pop()
discards the last remaining line (line 152), the placeholder set is
extracted, every placeholder must have an entry among the arguments or
the program prints usage and exits — modelled as Except.error carrying
the first missing name (lines 166-172) — and finally each line has
every placeholder replaced, in set-insertion order, by its bound value
with commas turned to spaces (lines 175-180; both replacements are
global). -/
def setupWorkload (rawLines : List String) (args : List (String × String)) :
    Except String (List String) :=
  let tasks := (rawLines.filter (fun l => l.data.head? != some '#')).dropLast
  let defines := extractAllDefines tasks
  match defines.find? (fun d => (args.lookup d).isNone) with
  | some d => Except.error d
  | none =>
      Except.ok (tasks.map (fun t =>
        defines.foldl
          (fun acc d => strReplace acc ("@" ++ d) (strReplace ((args.lookup d).getD "") "," " "))
          t))

/-- The run summary computed by fin (src/pmanage.js lines 60-71):
total_duration = end_time - start_time, unused_area the sum over
thread_end_times of end_time minus that entry, total_area =
total_duration times total_slots, and the printed utilization
percentage (total_area - unused_area) / total_area * 100.  Times are
millisecond clock readings, modelled as integers, and the percentage
as a rational.  When total_area = 0 the JavaScript division yields NaN
(printed as utilization NaN%), modelled here as none. -/
def utilization (start_time end_time : ℤ) (tet : List ℤ) (total_slots : ℕ) :
    Option ℚ :=
  let total_duration : ℚ := ((end_time - start_time : ℤ) : ℚ)
  let unused_area : ℚ := (((tet.map (fun t => end_time - t)).sum : ℤ) : ℚ)
  let total_area : ℚ := total_duration * total_slots
  if total_area = 0 then none
  else some ((total_area - unused_area) / total_area * 100)

/-- A one-capacity state with one waiter queued, used to instantiate
hypotheses of the theorems below at a concrete input. -/
def contendedState : SemState :=
  { initSem 1 with avail := 0, waiters := [5] }

/-! ## Helper lemmas about the semaphore operations -/

theorem releaseSlot_cons (now : ℤ) (s : SemState) (w : ℕ) (rest : List ℕ)
    (h : s.waiters = w :: rest) :
    releaseSlot now s = { s with waiters := rest, resumed := s.resumed ++ [w] } := by
  unfold releaseSlot
  rw [h]

theorem releaseSlot_nil_fields (now : ℤ) (s : SemState) (h : s.waiters = []) :
    (releaseSlot now s).avail = s.avail + 1 ∧
    (releaseSlot now s).total = s.total ∧
    (releaseSlot now s).waiters = [] ∧
    (releaseSlot now s).running = s.running - 1 ∧
    (releaseSlot now s).thread_end_times = s.thread_end_times ++ [now] ∧
    (releaseSlot now s).resumed = s.resumed ∧
    (releaseSlot now s).enqueued = s.enqueued ∧
    (releaseSlot now s).completed = s.completed ∧
    (releaseSlot now s).fin_count =
      (if s.avail + 1 = s.total then s.fin_count + 1 else s.fin_count) := by
  unfold releaseSlot
  rw [h]
  by_cases hc : s.avail + 1 = s.total <;> simp [hc]

theorem acquireSlot_pos (t : ℕ) (s : SemState) (h : 0 < s.avail) :
    acquireSlot t s = ({ s with avail := s.avail - 1, running := s.running + 1 }, true) := by
  unfold acquireSlot
  rw [if_pos h]

theorem acquireSlot_nonpos (t : ℕ) (s : SemState) (h : ¬ 0 < s.avail) :
    acquireSlot t s =
      ({ s with waiters := s.waiters ++ [t], enqueued := s.enqueued ++ [t] }, false) := by
  unfold acquireSlot
  rw [if_neg h]

theorem projB_stepX (s : SemState) (op : SemOp) :
    projB (stepX s op) = stepB (projB s) op := by
  cases op with
  | acq t =>
      simp only [stepX, stepB, acquireSlot, acquireSlotB, projB]
      split <;> rfl
  | rel now =>
      show projB (releaseSlot now s) = releaseSlotB (projB s)
      cases h : s.waiters with
      | nil =>
          obtain ⟨h1, _, h3, _⟩ := releaseSlot_nil_fields now s h
          have hB : releaseSlotB (projB s) = { avail := s.avail + 1, waiters := [] } := by
            simp [releaseSlotB, projB, h]
          rw [hB]
          simp [projB, h1, h3]
      | cons w rest =>
          rw [releaseSlot_cons now s w rest h]
          simp [releaseSlotB, projB, h]

theorem projB_runX (ops : List SemOp) (s : SemState) :
    projB (runX ops s) = runB ops (projB s) := by
  induction ops generalizing s with
  | nil => rfl
  | cons op rest ih =>
      show projB (runX rest (stepX s op)) = runB rest (stepB (projB s) op)
      rw [ih, projB_stepX]

/-! ## C4: frame effects of releaseSlot -/

/-- C4: releaseSlot with a non-empty waiter queue dequeues the head
waiter and resumes it, leaving the available counter (and the idle
timestamps and the completion hook) untouched — the slot is handed over
directly, never incremented then decremented; releaseSlot with an empty
waiter queue increments available by exactly one and leaves the waiter
queue unchanged (empty). -/
theorem release_transfer_or_increment (s : SemState) (now : ℤ) :
    (∀ w rest, s.waiters = w :: rest →
        (releaseSlot now s).avail = s.avail ∧
        (releaseSlot now s).waiters = rest ∧
        (releaseSlot now s).resumed = s.resumed ++ [w] ∧
        (releaseSlot now s).thread_end_times = s.thread_end_times ∧
        (releaseSlot now s).fin_count = s.fin_count) ∧
    (s.waiters = [] →
        (releaseSlot now s).avail = s.avail + 1 ∧
        (releaseSlot now s).waiters = s.waiters) := by
  constructor
  · intro w rest h
    rw [releaseSlot_cons now s w rest h]
    exact ⟨rfl, rfl, rfl, rfl, rfl⟩
  · intro h
    obtain ⟨h1, _, h3, _⟩ := releaseSlot_nil_fields now s h
    exact ⟨h1, h3.trans h.symm⟩

/-- Witness for C4 at two concrete states: one with a waiter queued,
one with an empty queue. -/
theorem release_transfer_or_increment_witness :
    ((releaseSlot 3 contendedState).avail = contendedState.avail ∧
     (releaseSlot 3 contendedState).waiters = [] ∧
     (releaseSlot 3 contendedState).resumed = contendedState.resumed ++ [5] ∧
     (releaseSlot 3 contendedState).thread_end_times = contendedState.thread_end_times ∧
     (releaseSlot 3 contendedState).fin_count = contendedState.fin_count) ∧
    ((releaseSlot 7 (initSem 1)).avail = (initSem 1).avail + 1 ∧
     (releaseSlot 7 (initSem 1)).waiters = (initSem 1).waiters) :=
  ⟨(release_transfer_or_increment contendedState 3).1 5 [] rfl,
   (release_transfer_or_increment (initSem 1) 7).2 rfl⟩

/-! ## C9: the two variants agree on the semaphore -/

/-- C9: on every sequence of acquire and release operations the bare
variant's semaphore and the extended variant's semaphore make the same
admission decisions and go through identical (available, waiters)
states; an acquire never touches the extended-only bookkeeping, and a
release touches it only on the empty-waiters branch. -/
theorem bare_extended_equiv :
    (∀ ops s, projB (runX ops s) = runB ops (projB s)) ∧
    (∀ t s, (acquireSlot t s).2 = (acquireSlotB t (projB s)).2) ∧
    (∀ t s, (acquireSlot t s).1.thread_end_times = s.thread_end_times ∧
            (acquireSlot t s).1.fin_count = s.fin_count) ∧
    (∀ now s, s.waiters ≠ [] →
        (releaseSlot now s).thread_end_times = s.thread_end_times ∧
        (releaseSlot now s).fin_count = s.fin_count) := by
  refine ⟨projB_runX, ?_, ?_, ?_⟩
  · intro t s
    simp only [acquireSlot, acquireSlotB, projB]
    split <;> rfl
  · intro t s
    simp only [acquireSlot]
    split <;> exact ⟨rfl, rfl⟩
  · intro now s h
    match hw : s.waiters with
    | [] => exact absurd hw h
    | w :: rest =>
        rw [releaseSlot_cons now s w rest hw]
        exact ⟨rfl, rfl⟩

/-- Witness for C9 at a concrete operation sequence and concrete
states. -/
theorem bare_extended_equiv_witness :
    projB (runX [SemOp.acq 0, SemOp.acq 1, SemOp.rel 4] (initSem 1)) =
      runB [SemOp.acq 0, SemOp.acq 1, SemOp.rel 4] (projB (initSem 1)) ∧
    (acquireSlot 2 contendedState).2 = (acquireSlotB 2 (projB contendedState)).2 ∧
    (releaseSlot 9 contendedState).thread_end_times = contendedState.thread_end_times ∧
    (releaseSlot 9 contendedState).fin_count = contendedState.fin_count :=
  ⟨bare_extended_equiv.1 [SemOp.acq 0, SemOp.acq 1, SemOp.rel 4] (initSem 1),
   bare_extended_equiv.2.1 2 contendedState,
   bare_extended_equiv.2.2.2 9 contendedState (by decide)⟩

/-! ## C2: a failing task and its slot -/

/-- C2 (evidence for a code bug): with capacity 1 and two submitted
tasks, task 0 is admitted and task 1 queued.  If task 0's exec promise
rejects, the await at src/pmanage.js line 120 throws and nothing after
it runs: releaseSlot is never called, the slot leaks (available stays
0), waiter 1 is never resumed, the completed counter stays 0 and the
run summary never fires.  Had the same task succeeded, the waiter
would have been resumed and the counter incremented.  This contradicts
the claim that a failing task still releases its slot and still counts
toward completion. -/
theorem failed_task_skips_release :
    (taskFinish false 1 (acquirePhase 2 (initSem 1))).avail = 0 ∧
    (taskFinish false 1 (acquirePhase 2 (initSem 1))).waiters = [1] ∧
    (taskFinish false 1 (acquirePhase 2 (initSem 1))).completed = 0 ∧
    (taskFinish false 1 (acquirePhase 2 (initSem 1))).fin_count = 0 ∧
    (taskFinish true 1 (acquirePhase 2 (initSem 1))).waiters = [] ∧
    (taskFinish true 1 (acquirePhase 2 (initSem 1))).resumed = [1] ∧
    (taskFinish true 1 (acquirePhase 2 (initSem 1))).completed = 1 := by
  decide

/-! ## C10: prefix capture during substitution -/

/-- C10: substitution is a sequence of global textual replacements in
extraction order with no token-boundary check, so when one placeholder
name is a strict prefix of another the earlier replacement eats the
longer placeholder: with FOO bound to x and FOOBAR bound to y, the
line echo @FOO @FOOBAR expands to echo x xBAR, not to echo x y. -/
theorem prefix_capture_substitution :
    setupWorkload ["echo @FOO @FOOBAR", ""] [("FOO", "x"), ("FOOBAR", "y")] =
      Except.ok ["echo x xBAR"] ∧
    ("echo x xBAR" : String) ≠ "echo x y" := by
  constructor
  · rfl
  · decide

/-! ## C1 and C3: the semaphore invariant on reachable states -/

theorem semInv_init (N : ℕ) : SemInv N (initSem N) := by
  refine ⟨by simp [initSem], by simp [initSem], rfl, ?_, rfl⟩
  intro hw
  exact absurd rfl hw

theorem semInv_acq (N : ℕ) (t : ℕ) (s : SemState) (ih : SemInv N s) :
    SemInv N (acquireSlot t s).1 := by
  obtain ⟨h1, h2, h3, h4, h5⟩ := ih
  by_cases hc : 0 < s.avail
  · rw [acquireSlot_pos t s hc]
    refine ⟨by show (0 : ℤ) ≤ s.avail - 1; omega, ?_, h3, ?_, h5⟩
    · show s.avail - 1 + ((s.running + 1 : ℕ) : ℤ) = (N : ℤ)
      push_cast
      omega
    · intro hw
      exact absurd (h4 hw) (by omega)
  · rw [acquireSlot_nonpos t s hc]
    refine ⟨h1, h2, h3, fun _ => by show s.avail = 0; omega, ?_⟩
    show s.resumed ++ (s.waiters ++ [t]) = s.enqueued ++ [t]
    rw [← List.append_assoc, h5]

theorem semInv_rel (N : ℕ) (now : ℤ) (s : SemState) (hr : 0 < s.running)
    (ih : SemInv N s) : SemInv N (releaseSlot now s) := by
  obtain ⟨h1, h2, h3, h4, h5⟩ := ih
  cases hw : s.waiters with
  | cons w rest =>
      rw [releaseSlot_cons now s w rest hw]
      refine ⟨h1, h2, h3, fun _ => h4 (by simp [hw]), ?_⟩
      show s.resumed ++ [w] ++ rest = s.enqueued
      rw [List.append_assoc, ← h5, hw]
      rfl
  | nil =>
      obtain ⟨g1, g2, g3, g4, g5, g6, g7, g8, g9⟩ := releaseSlot_nil_fields now s hw
      refine ⟨by omega, ?_, g2.trans h3, ?_, ?_⟩
      · rw [g1, g4]
        have : ((s.running - 1 : ℕ) : ℤ) = (s.running : ℤ) - 1 := by omega
        rw [this]
        omega
      · intro hcontra
        exact absurd g3 hcontra
      · rw [g6, g3, g7, ← h5, hw]

theorem semInv_reachable {N : ℕ} {s : SemState} (h : Reachable N s) : SemInv N s := by
  induction h with
  | init => exact semInv_init N
  | acq t h ih => exact semInv_acq N t _ ih
  | rel now h hr ih => exact semInv_rel N now _ hr ih

/-- C1: from the initial state, every sequence of acquire and release
operations (a release happening only while some task is running, which
is how the program calls releaseSlot) keeps the semaphore invariant:
available is never negative and never exceeds the capacity, available
plus the number of running tasks equals the capacity when no waiter is
queued, the waiter queue is non-empty only while available is zero,
and for every capacity N of at least 1 the number of concurrently
running tasks never exceeds N. -/
theorem slot_semaphore_invariant (N : ℕ) (s : SemState) (_hN : 1 ≤ N)
    (h : Reachable N s) :
    0 ≤ s.avail ∧ s.avail ≤ N ∧
    (s.waiters = [] → s.avail + s.running = N) ∧
    (s.waiters ≠ [] → s.avail = 0) ∧
    s.running ≤ N := by
  obtain ⟨h1, h2, _, h4, _⟩ := semInv_reachable h
  refine ⟨h1, by omega, fun _ => h2, h4, by omega⟩

/-- Witness for C1 at capacity 1 and a concrete reachable state. -/
theorem slot_semaphore_invariant_witness :
    (1 ≤ 1 ∧ Reachable 1 (initSem 1)) ∧
    (0 ≤ (initSem 1).avail ∧ (initSem 1).avail ≤ 1 ∧
     ((initSem 1).waiters = [] → (initSem 1).avail + (initSem 1).running = 1) ∧
     ((initSem 1).waiters ≠ [] → (initSem 1).avail = 0) ∧
     (initSem 1).running ≤ 1) :=
  ⟨⟨le_refl 1, Reachable.init⟩,
   slot_semaphore_invariant 1 (initSem 1) (le_refl 1) Reachable.init⟩

/-- C3: admission under contention is first-in first-out.  On every
reachable state the sequence of waiters resumed so far is an initial
segment of the sequence of waiters enqueued so far, so a task that
suspended earlier is always resumed earlier; moreover acquireSlot on a
full semaphore appends the caller to the tail of the waiter queue, and
releaseSlot on a non-empty queue dequeues and resumes exactly its
head. -/
theorem fifo_admission (N : ℕ) (s : SemState) (h : Reachable N s) :
    (∃ l, s.resumed ++ l = s.enqueued) ∧
    (∀ t s2, s2.avail ≤ 0 →
        (acquireSlot t s2).1.waiters = s2.waiters ++ [t] ∧
        (acquireSlot t s2).1.enqueued = s2.enqueued ++ [t]) ∧
    (∀ now w rest s2, s2.waiters = w :: rest →
        (releaseSlot now s2).waiters = rest ∧
        (releaseSlot now s2).resumed = s2.resumed ++ [w]) := by
  refine ⟨⟨s.waiters, (semInv_reachable h).2.2.2.2⟩, ?_, ?_⟩
  · intro t s2 hle
    rw [acquireSlot_nonpos t s2 (by omega)]
    exact ⟨rfl, rfl⟩
  · intro now w rest s2 hw
    rw [releaseSlot_cons now s2 w rest hw]
    exact ⟨rfl, rfl⟩

/-- Witness for C3 at a concrete reachable state and concrete
instantiations of the frame facts. -/
theorem fifo_admission_witness :
    (∃ l, (initSem 1).resumed ++ l = (initSem 1).enqueued) ∧
    ((acquireSlot 7 contendedState).1.waiters = contendedState.waiters ++ [7] ∧
     (acquireSlot 7 contendedState).1.enqueued = contendedState.enqueued ++ [7]) ∧
    ((releaseSlot 3 contendedState).waiters = [] ∧
     (releaseSlot 3 contendedState).resumed = contendedState.resumed ++ [5]) :=
  ⟨(fifo_admission 1 (initSem 1) Reachable.init).1,
   (fifo_admission 1 (initSem 1) Reachable.init).2.1 7 contendedState (by decide),
   (fifo_admission 1 (initSem 1) Reachable.init).2.2 3 5 [] contendedState rfl⟩

/-! ## C7 and C8: workload expansion -/

theorem extractAllDefines_eq_nil (ts : List String)
    (h : ∀ l ∈ ts, matchDefines l.data = []) : extractAllDefines ts = [] := by
  have key : ∀ acc, ts.foldl
      (fun acc line => (matchDefines line.data).foldl insertDefine acc) acc = acc := by
    induction ts with
    | nil => intro acc; rfl
    | cons x xs ih =>
        intro acc
        have hx : matchDefines x.data = [] := h x (List.mem_cons_self x xs)
        show xs.foldl _ ((matchDefines x.data).foldl insertDefine acc) = acc
        rw [hx]
        exact ih (fun l hl => h l (List.mem_cons_of_mem x hl)) acc
  exact key []

/-- C7: whenever some placeholder extracted from the workload (after
comment filtering and dropping the trailing line) has no entry among
the supplied arguments, setupWorkload signals a configuration error
and produces no expanded output at all — in the source it prints usage
and exits before the substitution loop ever runs. -/
theorem missing_define_fails (rawLines : List String) (args : List (String × String))
    (h : ∃ d, d ∈ extractAllDefines ((rawLines.filter
        (fun l => l.data.head? != some '#')).dropLast) ∧ (args.lookup d).isNone) :
    ∃ e, setupWorkload rawLines args = Except.error e := by
  obtain ⟨d, hd, hnone⟩ := h
  cases hf : (extractAllDefines ((rawLines.filter
      (fun l => l.data.head? != some '#')).dropLast)).find?
      (fun d => (args.lookup d).isNone) with
  | none =>
      rw [List.find?_eq_none] at hf
      exact absurd hnone (by simpa using hf d hd)
  | some e =>
      refine ⟨e, ?_⟩
      simp only [setupWorkload]
      rw [hf]

/-- Witness for C7: a one-line workload naming FOO with no FOO
argument supplied. -/
theorem missing_define_fails_witness :
    ∃ e, setupWorkload ["echo @FOO", ""] [] = Except.error e :=
  missing_define_fails ["echo @FOO", ""] [] ⟨"FOO", by decide, by decide⟩

/-- C8: on a workload whose lines contain no placeholder, expansion is
the identity on the line sequence except that comment lines (first
character the hash sign) are removed and the blank trailing line
contributed by the file's terminating newline is dropped; the
surviving lines come out unchanged and in order. -/
theorem no_placeholder_identity (lines : List String) (args : List (String × String))
    (h : ∀ l ∈ lines, matchDefines l.data = []) :
    setupWorkload (lines ++ [""]) args =
      Except.ok (lines.filter (fun l => l.data.head? != some '#')) := by
  have hdrop : ((lines ++ [""]).filter (fun l => l.data.head? != some '#')).dropLast
      = lines.filter (fun l => l.data.head? != some '#') := by
    rw [List.filter_append]
    show (lines.filter _ ++ [""]).dropLast = _
    rw [List.dropLast_concat]
  have hdef : extractAllDefines (lines.filter (fun l => l.data.head? != some '#')) = [] :=
    extractAllDefines_eq_nil _ (fun l hl => h l (List.mem_of_mem_filter hl))
  simp only [setupWorkload, hdrop, hdef]
  exact congrArg Except.ok (List.map_id'' (fun t => rfl) _)

/-- Witness for C8: a workload of one comment and one command, no
placeholders. -/
theorem no_placeholder_identity_witness :
    setupWorkload (["# build step", "make all"] ++ [""]) [("FOO", "x")] =
      Except.ok ((["# build step", "make all"]).filter
        (fun l => l.data.head? != some '#')) :=
  no_placeholder_identity ["# build step", "make all"] [("FOO", "x")] (by decide)

/-! ## C5: the run summary fires exactly once, at the last release -/

theorem acquirePhase_closed (N M : ℕ) :
    (acquirePhase M (initSem N)).avail = ((N - M : ℕ) : ℤ) ∧
    (acquirePhase M (initSem N)).total = (N : ℤ) ∧
    (acquirePhase M (initSem N)).running = min N M ∧
    (acquirePhase M (initSem N)).waiters = (List.range M).drop N ∧
    (acquirePhase M (initSem N)).thread_end_times = [] ∧
    (acquirePhase M (initSem N)).fin_count = 0 := by
  induction M with
  | zero => simp [acquirePhase, initSem]
  | succ m ih =>
      obtain ⟨h1, h2, h3, h4, h5, h6⟩ := ih
      have hstep : acquirePhase (m + 1) (initSem N)
          = (acquireSlot m (acquirePhase m (initSem N))).1 := by
        unfold acquirePhase
        rw [List.range_succ, List.foldl_append]
        rfl
      rw [hstep]
      by_cases hc : m < N
      · have hpos : 0 < (acquirePhase m (initSem N)).avail := by
          rw [h1]; omega
        rw [acquireSlot_pos _ _ hpos]
        refine ⟨?_, h2, ?_, ?_, h5, h6⟩
        · show (acquirePhase m (initSem N)).avail - 1 = ((N - (m + 1) : ℕ) : ℤ)
          rw [h1]; omega
        · show (acquirePhase m (initSem N)).running + 1 = min N (m + 1)
          rw [h3]; omega
        · show (acquirePhase m (initSem N)).waiters = (List.range (m + 1)).drop N
          rw [h4, List.drop_eq_nil_of_le (by simpa using Nat.le_of_lt hc),
              List.drop_eq_nil_of_le (by simp; omega)]
      · have hle : ¬ 0 < (acquirePhase m (initSem N)).avail := by
          rw [h1]; omega
        rw [acquireSlot_nonpos _ _ hle]
        refine ⟨?_, h2, ?_, ?_, h5, h6⟩
        · show (acquirePhase m (initSem N)).avail = ((N - (m + 1) : ℕ) : ℤ)
          rw [h1]; omega
        · show (acquirePhase m (initSem N)).running = min N (m + 1)
          rw [h3]; omega
        · show (acquirePhase m (initSem N)).waiters ++ [m] = (List.range (m + 1)).drop N
          rw [h4, List.range_succ, List.drop_append_of_le_length (by simp; omega)]

theorem relIter_closed (N M : ℕ) (τ : ℕ → ℤ) (hN : 1 ≤ N) (hM : 1 ≤ M) :
    ∀ k, k ≤ M →
      (relIter τ k (acquirePhase M (initSem N))).avail = ((N - (M - k) : ℕ) : ℤ) ∧
      (relIter τ k (acquirePhase M (initSem N))).total = (N : ℤ) ∧
      (relIter τ k (acquirePhase M (initSem N))).running = min N (M - k) ∧
      (relIter τ k (acquirePhase M (initSem N))).waiters = (List.range M).drop (N + k) ∧
      (relIter τ k (acquirePhase M (initSem N))).fin_count = (if M ≤ k then 1 else 0) ∧
      (relIter τ k (acquirePhase M (initSem N))).thread_end_times.length
        = min M N - min N (M - k) := by
  intro k
  induction k with
  | zero =>
      intro _
      obtain ⟨a1, a2, a3, a4, a5, a6⟩ := acquirePhase_closed N M
      refine ⟨a1, a2, a3, a4, ?_, ?_⟩
      · rw [if_neg (by omega)]
        exact a6
      · show (acquirePhase M (initSem N)).thread_end_times.length = min M N - min N (M - 0)
        rw [a5]
        simp only [List.length_nil]
        omega
  | succ k ih =>
      intro hk
      obtain ⟨h1, h2, h3, h4, h5, h6⟩ := ih (by omega)
      have hstep : relIter τ (k + 1) (acquirePhase M (initSem N))
          = releaseSlot (τ k) (relIter τ k (acquirePhase M (initSem N))) := rfl
      rw [hstep]
      set s := relIter τ k (acquirePhase M (initSem N)) with hs
      by_cases hw : N + k < M
      · have hcons : (List.range M).drop (N + k)
            = (N + k) :: (List.range M).drop (N + k + 1) := by
          rw [List.drop_eq_getElem_cons (by simpa using hw), List.getElem_range]
        have hw4 : s.waiters = (N + k) :: (List.range M).drop (N + k + 1) := by
          rw [h4, hcons]
        rw [releaseSlot_cons (τ k) s (N + k) _ hw4]
        refine ⟨?_, h2, ?_, ?_, ?_, ?_⟩
        · show s.avail = ((N - (M - (k + 1)) : ℕ) : ℤ)
          rw [h1]; omega
        · show s.running = min N (M - (k + 1))
          rw [h3]; omega
        · show (List.range M).drop (N + k + 1) = (List.range M).drop (N + (k + 1))
          rfl
        · show s.fin_count = (if M ≤ k + 1 then 1 else 0)
          rw [h5, if_neg (by omega), if_neg (by omega)]
        · show s.thread_end_times.length = min M N - min N (M - (k + 1))
          rw [h6]; omega
      · have hnil : s.waiters = [] := by
          rw [h4]
          exact List.drop_eq_nil_of_le (by simp; omega)
        obtain ⟨g1, g2, g3, g4, g5, g6, g7, g8, g9⟩ := releaseSlot_nil_fields (τ k) s hnil
        refine ⟨?_, g2.trans h2, ?_, ?_, ?_, ?_⟩
        · rw [g1, h1]; omega
        · rw [g4, h3]; omega
        · rw [g3]
          exact (List.drop_eq_nil_of_le (by simp; omega)).symm
        · by_cases hMk : M = k + 1
          · have hfin : s.avail + 1 = s.total := by
              rw [h1, h2]; omega
            rw [g9, if_pos hfin, h5, if_neg (by omega), if_pos (by omega)]
          · have hfin : ¬ s.avail + 1 = s.total := by
              rw [h1, h2]; omega
            rw [g9, if_neg hfin, h5, if_neg (by omega), if_neg (by omega)]
        · rw [g5, List.length_append, h6]
          simp only [List.length_cons, List.length_nil]
          omega

/-- C5: in a run of M tasks (M at least 1) on capacity N (at least 1)
in which every task completes, all acquires happen synchronously up
front and then releaseSlot runs exactly M times; the run summary fin()
fires exactly once, namely at the M-th release — the release that
brings available back to the capacity after it had been below it — and
at every earlier point the summary has not fired and available is
still below capacity; after the M-th release no task is running and no
waiter is queued, so no further release can occur. -/
theorem run_summary_fires_once (N M : ℕ) (τ : ℕ → ℤ) (hN : 1 ≤ N) (hM : 1 ≤ M) :
    (∀ k, k < M →
        (relIter τ k (acquirePhase M (initSem N))).fin_count = 0 ∧
        (relIter τ k (acquirePhase M (initSem N))).avail < N) ∧
    (relIter τ M (acquirePhase M (initSem N))).fin_count = 1 ∧
    (relIter τ M (acquirePhase M (initSem N))).avail = N ∧
    (relIter τ M (acquirePhase M (initSem N))).running = 0 ∧
    (relIter τ M (acquirePhase M (initSem N))).waiters = [] := by
  refine ⟨?_, ?_, ?_, ?_, ?_⟩
  · intro k hkM
    obtain ⟨h1, _, _, _, h5, _⟩ := relIter_closed N M τ hN hM k (by omega)
    refine ⟨by rw [h5, if_neg (by omega)], by rw [h1]; omega⟩
  · obtain ⟨_, _, _, _, h5, _⟩ := relIter_closed N M τ hN hM M (le_refl M)
    rw [h5, if_pos (le_refl M)]
  · obtain ⟨h1, _, _, _, _, _⟩ := relIter_closed N M τ hN hM M (le_refl M)
    rw [h1]; omega
  · obtain ⟨_, _, h3, _, _, _⟩ := relIter_closed N M τ hN hM M (le_refl M)
    rw [h3]; omega
  · obtain ⟨_, _, _, h4, _, _⟩ := relIter_closed N M τ hN hM M (le_refl M)
    rw [h4]
    exact List.drop_eq_nil_of_le (by simp only [List.length_range]; omega)

/-- Witness for C5 with capacity 1, two tasks and a concrete clock. -/
theorem run_summary_fires_once_witness :
    ((relIter (fun j => (j : ℤ)) 1 (acquirePhase 2 (initSem 1))).fin_count = 0 ∧
     (relIter (fun j => (j : ℤ)) 1 (acquirePhase 2 (initSem 1))).avail < 1) ∧
    (relIter (fun j => (j : ℤ)) 2 (acquirePhase 2 (initSem 1))).fin_count = 1 ∧
    (relIter (fun j => (j : ℤ)) 2 (acquirePhase 2 (initSem 1))).avail = 1 ∧
    (relIter (fun j => (j : ℤ)) 2 (acquirePhase 2 (initSem 1))).running = 0 ∧
    (relIter (fun j => (j : ℤ)) 2 (acquirePhase 2 (initSem 1))).waiters = [] :=
  ⟨(run_summary_fires_once 1 2 (fun j => (j : ℤ)) (le_refl 1) (by decide)).1 1 (by decide),
   (run_summary_fires_once 1 2 (fun j => (j : ℤ)) (le_refl 1) (by decide)).2⟩

/-! ## C6: utilization bounds -/

theorem utilization_in_range (st en : ℤ) (tet : List ℤ) (N : ℕ)
    (hN : 1 ≤ N) (hlen : tet.length ≤ N)
    (hmem : ∀ t ∈ tet, st ≤ t ∧ t ≤ en) (hd : st < en) :
    ∃ u : ℚ, utilization st en tet N = some u ∧ 0 ≤ u ∧ u ≤ 100 := by
  set U : ℤ := (tet.map (fun t => en - t)).sum with hU
  have hU0 : 0 ≤ U := by
    apply List.sum_nonneg
    intro x hx
    obtain ⟨t, ht, rfl⟩ := List.mem_map.mp hx
    have := (hmem t ht).2
    omega
  have hUle : U ≤ (N : ℤ) * (en - st) := by
    have h1 : U ≤ (tet.map (fun t => en - t)).length • (en - st) := by
      apply List.sum_le_card_nsmul
      intro x hx
      obtain ⟨t, ht, rfl⟩ := List.mem_map.mp hx
      have := (hmem t ht).1
      omega
    rw [List.length_map, nsmul_eq_mul] at h1
    have h2 : (tet.length : ℤ) * (en - st) ≤ (N : ℤ) * (en - st) :=
      mul_le_mul_of_nonneg_right (by exact_mod_cast hlen) (by omega)
    omega
  have hd' : (0 : ℚ) < ((en - st : ℤ) : ℚ) := by
    exact_mod_cast sub_pos.mpr hd
  have hNQ : (0 : ℚ) < (N : ℚ) := by
    exact_mod_cast Nat.lt_of_lt_of_le Nat.zero_lt_one hN
  have hA : (0 : ℚ) < ((en - st : ℤ) : ℚ) * (N : ℚ) := mul_pos hd' hNQ
  have hUQ : (U : ℚ) ≤ ((en - st : ℤ) : ℚ) * (N : ℚ) := by
    have h3 : (U : ℚ) ≤ (((N : ℤ) * (en - st) : ℤ) : ℚ) := by exact_mod_cast hUle
    push_cast at h3 ⊢
    linarith
  have hUQ0 : (0 : ℚ) ≤ (U : ℚ) := by exact_mod_cast hU0
  refine ⟨(((en - st : ℤ) : ℚ) * (N : ℚ) - (U : ℚ)) /
      (((en - st : ℤ) : ℚ) * (N : ℚ)) * 100, ?_, ?_, ?_⟩
  · simp only [utilization]
    rw [if_neg (ne_of_gt hA)]
  · apply mul_nonneg _ (by norm_num)
    exact div_nonneg (by linarith) (le_of_lt hA)
  · have h1 : (((en - st : ℤ) : ℚ) * (N : ℚ) - (U : ℚ)) /
        (((en - st : ℤ) : ℚ) * (N : ℚ)) ≤ 1 :=
      (div_le_one hA).mpr (by linarith)
    have h2 := mul_le_mul_of_nonneg_right h1 (by norm_num : (0 : ℚ) ≤ 100)
    linarith

theorem releaseSlot_tet_mem (now : ℤ) (s : SemState) :
    ∀ x ∈ (releaseSlot now s).thread_end_times, x ∈ s.thread_end_times ∨ x = now := by
  cases hw : s.waiters with
  | cons w rest =>
      rw [releaseSlot_cons now s w rest hw]
      intro x hx
      exact Or.inl hx
  | nil =>
      obtain ⟨_, _, _, _, g5, _⟩ := releaseSlot_nil_fields now s hw
      intro x hx
      rw [g5] at hx
      simpa using hx

theorem relIter_tet_mem (τ : ℕ → ℤ) (P : ℤ → Prop) (hτ : ∀ j, P (τ j)) :
    ∀ k s, (∀ x ∈ s.thread_end_times, P x) →
      ∀ x ∈ (relIter τ k s).thread_end_times, P x := by
  intro k
  induction k with
  | zero => intro s hs; exact hs
  | succ k ih =>
      intro s hs x hx
      cases releaseSlot_tet_mem (τ k) (relIter τ k s) x hx with
      | inl h => exact ih s hs x h
      | inr h => rw [h]; exact hτ k

/-- C6, amended: for every run of M tasks (M at least 1) on capacity N
(at least 1) whose clock readings are monotone — every release time
lies between the run's start and end — and whose total wall-clock
duration is positive, the utilization percentage computed by fin is
defined and lies in [0, 100]; and a single task occupying its slot for
the entire (positive) run duration with N = 1 yields exactly 100%.
The positive-duration proviso is the amendment: see the
counterexample. -/
theorem utilization_bounded :
    (∀ (N M : ℕ) (τ : ℕ → ℤ) (st en : ℤ), 1 ≤ N → 1 ≤ M →
        (∀ j, st ≤ τ j ∧ τ j ≤ en) → st < en →
        ∃ u : ℚ,
          utilization st en
            (relIter τ M (acquirePhase M (initSem N))).thread_end_times N = some u ∧
          0 ≤ u ∧ u ≤ 100) ∧
    (∀ st en : ℤ, st < en → utilization st en [en] 1 = some 100) := by
  constructor
  · intro N M τ st en hN hM hτ hd
    apply utilization_in_range st en _ N hN ?_ ?_ hd
    · obtain ⟨_, _, _, _, _, h6⟩ := relIter_closed N M τ hN hM M (le_refl M)
      rw [h6]
      omega
    · have hbase : ∀ x ∈ (acquirePhase M (initSem N)).thread_end_times,
          st ≤ x ∧ x ≤ en := by
        obtain ⟨_, _, _, _, a5, _⟩ := acquirePhase_closed N M
        rw [a5]
        intro x hx
        cases hx
      exact relIter_tet_mem τ _ hτ M _ hbase
  · intro st en hd
    have hd' : (0 : ℚ) < ((en - st : ℤ) : ℚ) := by
      exact_mod_cast sub_pos.mpr hd
    simp only [utilization, List.map_cons, List.map_nil, List.sum_cons, List.sum_nil]
    rw [if_neg (by push_cast; simpa using ne_of_gt hd')]
    have hd2 : (0 : ℚ) < (en : ℚ) - (st : ℚ) := by push_cast at hd'; exact hd'
    congr 1
    push_cast
    have hne : ((en : ℚ) - st) ≠ 0 := ne_of_gt hd2
    field_simp

/-- Witness for C6 at a concrete one-task run over a positive
duration. -/
theorem utilization_bounded_witness :
    (∃ u : ℚ,
        utilization 0 10
          (relIter (fun _ => (5 : ℤ)) 1 (acquirePhase 1 (initSem 1))).thread_end_times
          1 = some u ∧ 0 ≤ u ∧ u ≤ 100) ∧
    utilization 0 10 [10] 1 = some 100 :=
  ⟨utilization_bounded.1 1 1 (fun _ => (5 : ℤ)) 0 10 (le_refl 1) (le_refl 1)
      (fun j => by show (0 : ℤ) ≤ 5 ∧ (5 : ℤ) ≤ 10; decide) (by decide),
   utilization_bounded.2 0 10 (by decide)⟩

/-- C6 counterexample to the claim as stated: in the run of one task
on capacity 1 whose clock never advances (start, the single release,
and end all at millisecond 0 — a zero total wall-clock duration, which
a monotone clock permits), fin computes 0/0, which is NaN in
JavaScript (printed as utilization NaN%), so no utilization percentage
in [0, 100] results. -/
theorem utilization_nan_counterexample :
    utilization 0 0
        (relIter (fun _ => (0 : ℤ)) 1 (acquirePhase 1 (initSem 1))).thread_end_times
        1 = none ∧
    ¬ ∃ u : ℚ,
        utilization 0 0
          (relIter (fun _ => (0 : ℤ)) 1 (acquirePhase 1 (initSem 1))).thread_end_times
          1 = some u ∧ 0 ≤ u ∧ u ≤ 100 := by
  have h : utilization 0 0
      (relIter (fun _ => (0 : ℤ)) 1 (acquirePhase 1 (initSem 1))).thread_end_times
      1 = none := by
    simp [utilization]
  refine ⟨h, ?_⟩
  rintro ⟨u, hu, -⟩
  rw [h] at hu
  cases hu

end Pmanage
